import Mathlib

/-!
Verification of the rsd9.3 torrent-streaming server core
(`main.go`): session cache resolution, range streaming, SRT→VTT
conversion, derived-artifact cleanup, the inactivity sweeper, the
subtitle-extraction monitor together with its front-end poller, and the
subtitle file-serving path check.

Strings from the Go code are modelled as `List Char`; machine integers
(`int64`) as `Int`; associative maps (`tc.vttFileMap`, the LotusDB
store, the LRU cache contents) as association lists over `List Char`
keys.  Helper functions mirror the `strings` / `path/filepath`
operations the code uses.
-/

namespace Rsd93

/-- Boolean "is a starting segment of", mirroring Go `strings.HasPrefix`
(argument order: `startsWith p l` is `HasPrefix(l, p)`). -/
def startsWith : List Char → List Char → Bool
  | [], _ => true
  | _ :: _, [] => false
  | p :: ps, c :: cs => if p = c then startsWith ps cs else false

/-- Boolean "is an ending segment of", mirroring Go `strings.HasSuffix`. -/
def endsWith (p l : List Char) : Bool :=
  startsWith p.reverse l.reverse

/-- Boolean "occurs as a contiguous segment of", mirroring Go
`strings.Contains` and JavaScript `String.prototype.includes`. -/
def containsSeq : List Char → List Char → Bool
  | pat, [] => pat.isEmpty
  | pat, c :: rest => startsWith pat (c :: rest) || containsSeq pat rest

/-- Lookup in an association list keyed by strings (first match wins),
mirroring a Go map read. -/
def lookupA {β : Type} (k : List Char) : List (List Char × β) → Option β
  | [] => none
  | (k₁, v) :: rest => if k₁ = k then some v else lookupA k rest

/-- Remove the first entry with the given key from an association list,
mirroring a Go map delete (keys are unique in an actual map). -/
def eraseA {β : Type} (k : List Char) : List (List Char × β) → List (List Char × β)
  | [] => []
  | (k₁, v) :: rest => if k₁ = k then rest else (k₁, v) :: eraseA k rest

theorem startsWith_iff (p l : List Char) :
    startsWith p l = true ↔ ∃ t, l = p ++ t := by
  induction p generalizing l with
  | nil => simp [startsWith]
  | cons a ps ih =>
    cases l with
    | nil => simp [startsWith]
    | cons c cs =>
      simp only [startsWith]
      by_cases hac : a = c
      · subst hac
        simp [ih]
      · simp only [if_neg hac, Bool.false_eq_true, false_iff, not_exists]
        intro t ht
        injection ht with h1 h2
        exact hac h1.symm

theorem startsWith_append (p t : List Char) :
    startsWith p (p ++ t) = true :=
  (startsWith_iff p (p ++ t)).mpr ⟨t, rfl⟩

theorem startsWith_refl (p : List Char) : startsWith p p = true := by
  simpa using startsWith_append p []

theorem startsWith_nil (l : List Char) : startsWith [] l = true := rfl

/-- Two starting segments of the same string with equal lengths coincide. -/
theorem startsWith_eq_of_length_eq {p q l : List Char}
    (hp : startsWith p l = true) (hq : startsWith q l = true)
    (hlen : p.length = q.length) : p = q := by
  obtain ⟨t, rfl⟩ := (startsWith_iff p l).mp hp
  obtain ⟨u, hu⟩ := (startsWith_iff q (p ++ t)).mp hq
  exact List.append_inj_left hu.symm hlen.symm |>.symm

/-- If the character `c` does not occur in `p`, then `p` starting
a string that reads `a`, then `c`, then anything, must already start `a`. -/
theorem startsWith_of_startsWith_append_cons {p : List Char} {c : Char}
    (hc : c ∉ p) :
    ∀ (a r : List Char), startsWith p (a ++ c :: r) = true → startsWith p a = true := by
  induction p with
  | nil => intro a r _; exact startsWith_nil a
  | cons q ps ih =>
    intro a r h
    cases a with
    | nil =>
      exfalso
      simp only [List.nil_append, startsWith] at h
      by_cases hqc : q = c
      · exact hc (by simp [hqc])
      · simp [hqc] at h
    | cons b as =>
      simp only [List.cons_append, startsWith] at h ⊢
      by_cases hqb : q = b
      · simp only [if_pos hqb] at h ⊢
        exact ih (fun hm => hc (List.mem_cons_of_mem _ hm)) as r h
      · simp [hqb] at h

theorem containsSeq_nil_left (l : List Char) : containsSeq [] l = true := by
  cases l <;> simp [containsSeq, startsWith, List.isEmpty]

theorem containsSeq_of_startsWith {pat l : List Char}
    (h : startsWith pat l = true) : containsSeq pat l = true := by
  cases l with
  | nil =>
    cases pat with
    | nil => exact containsSeq_nil_left []
    | cons a ps => simp [startsWith] at h
  | cons c cs => simp [containsSeq, h]

theorem containsSeq_append_right {pat b : List Char}
    (h : containsSeq pat b = true) (a : List Char) :
    containsSeq pat (a ++ b) = true := by
  induction a with
  | nil => simpa using h
  | cons x xs ih => simp [containsSeq, ih]

/-- An occurrence of `pat` in `a ++ c :: r` cannot straddle the `c`
position when `c` does not occur in `pat`; it lies wholly in `a` or
wholly in `r`. -/
theorem containsSeq_append_cons {pat : List Char} {c : Char} (hc : c ∉ pat) :
    ∀ (a r : List Char), containsSeq pat (a ++ c :: r) = true →
      containsSeq pat a = true ∨ containsSeq pat r = true := by
  intro a
  induction a with
  | nil =>
    intro r h
    simp only [List.nil_append, containsSeq, Bool.or_eq_true] at h
    rcases h with h | h
    · cases pat with
      | nil => exact Or.inl (containsSeq_nil_left [])
      | cons q ps =>
        exfalso
        simp only [startsWith] at h
        by_cases hqc : q = c
        · exact hc (by simp [hqc])
        · simp [hqc] at h
    · exact Or.inr h
  | cons b as ih =>
    intro r h
    simp only [List.cons_append, containsSeq, Bool.or_eq_true] at h
    rcases h with h | h
    · have := startsWith_of_startsWith_append_cons hc (b :: as) r (by simpa using h)
      exact Or.inl (containsSeq_of_startsWith this)
    · rcases ih r h with h' | h'
      · exact Or.inl (by simp [containsSeq, h'])
      · exact Or.inr h'

theorem lookupA_cons {β : Type} (k k₁ : List Char) (v : β)
    (m : List (List Char × β)) :
    lookupA k ((k₁, v) :: m) = if k₁ = k then some v else lookupA k m := rfl

theorem lookupA_eraseA_ne {β : Type} {k k' : List Char} (h : k' ≠ k)
    (m : List (List Char × β)) :
    lookupA k' (eraseA k m) = lookupA k' m := by
  induction m with
  | nil => rfl
  | cons p rest ih =>
    obtain ⟨k₁, v⟩ := p
    by_cases h₁ : k₁ = k
    · subst h₁
      have h₂ : k₁ ≠ k' := fun hh => h (hh.symm)
      simp [eraseA, lookupA, h₂]
    · by_cases h₂ : k₁ = k'
      · subst h₂
        simp [eraseA, lookupA, h₁]
      · simp [eraseA, lookupA, h₁, h₂, ih]

theorem lookupA_eq_none_iff {β : Type} (k : List Char)
    (m : List (List Char × β)) :
    lookupA k m = none ↔ k ∉ m.map Prod.fst := by
  induction m with
  | nil => simp [lookupA]
  | cons p rest ih =>
    obtain ⟨k₁, v⟩ := p
    by_cases h₁ : k₁ = k
    · subst h₁
      apply iff_of_false
      · intro h
        simp [lookupA] at h
      · intro hn
        refine hn ?_
        rw [List.map_cons]
        exact List.mem_cons_self _ _
    · have h₂ : k ≠ k₁ := fun hh => h₁ hh.symm
      simp [lookupA, h₁, ih, h₂, -List.mem_map]

theorem lookupA_eraseA_self {β : Type} {k : List Char}
    {m : List (List Char × β)} (hnd : (m.map Prod.fst).Nodup) :
    lookupA k (eraseA k m) = none := by
  rw [lookupA_eq_none_iff]
  induction m with
  | nil => simp [eraseA]
  | cons p rest ih =>
    obtain ⟨k₁, v⟩ := p
    simp only [List.map_cons, List.nodup_cons] at hnd
    by_cases h₁ : k₁ = k
    · subst h₁
      simpa [eraseA, -List.mem_map] using hnd.1
    · simp only [eraseA, if_neg h₁, List.map_cons, List.mem_cons]
      rintro (h | h)
      · exact h₁ h.symm
      · exact ih hnd.2 h

theorem lookupA_some_mem {β : Type} {k : List Char} {v : β}
    {m : List (List Char × β)} : lookupA k m = some v → (k, v) ∈ m := by
  induction m with
  | nil => intro h; simp [lookupA] at h
  | cons p rest ih =>
    obtain ⟨k₁, w⟩ := p
    intro h
    by_cases h₁ : k₁ = k
    · subst h₁
      have hv : w = v := by simpa [lookupA] using h
      subst hv
      exact List.mem_cons_self _ _
    · exact List.mem_cons_of_mem _ (ih (by simpa [lookupA, h₁] using h))

theorem lookupA_eq_of_mem_nodup {β : Type} {k : List Char} {v : β}
    {m : List (List Char × β)} (hnd : (m.map Prod.fst).Nodup)
    (hm : (k, v) ∈ m) : lookupA k m = some v := by
  induction m with
  | nil => simp at hm
  | cons p rest ih =>
    obtain ⟨k₁, w⟩ := p
    simp only [List.map_cons, List.nodup_cons] at hnd
    rcases List.mem_cons.mp hm with h | h
    · injection h with h1 h2
      subst h1; subst h2
      simp [lookupA]
    · have hk : k₁ ≠ k := by
        intro hh
        have hmem : (k, v).fst ∈ rest.map Prod.fst := List.mem_map_of_mem Prod.fst h
        exact hnd.1 (hh ▸ hmem)
      simp [lookupA, hk, ih hnd.2 h]

theorem eraseA_subset {β : Type} (k : List Char) (m : List (List Char × β)) :
    ∀ q ∈ eraseA k m, q ∈ m := by
  induction m with
  | nil => intro q hq; simpa [eraseA] using hq
  | cons p rest ih =>
    obtain ⟨k₁, v⟩ := p
    intro q hq
    by_cases h₁ : k₁ = k
    · simp only [eraseA, if_pos h₁] at hq
      exact List.mem_cons_of_mem _ hq
    · simp only [eraseA, if_neg h₁, List.mem_cons] at hq
      rcases hq with h | h
      · exact List.mem_cons.mpr (Or.inl h)
      · exact List.mem_cons_of_mem _ (ih q h)

theorem nodupKeys_eraseA {β : Type} (k : List Char)
    {m : List (List Char × β)} (hnd : (m.map Prod.fst).Nodup) :
    ((eraseA k m).map Prod.fst).Nodup := by
  induction m with
  | nil => simpa [eraseA] using hnd
  | cons p rest ih =>
    obtain ⟨k₁, v⟩ := p
    simp only [List.map_cons, List.nodup_cons] at hnd
    by_cases h₁ : k₁ = k
    · simpa [eraseA, h₁] using hnd.2
    · simp only [eraseA, if_neg h₁, List.map_cons]
      refine List.nodup_cons.mpr ⟨?_, ih hnd.2⟩
      intro hmem
      apply hnd.1
      obtain ⟨q, hq, hq1⟩ := List.mem_map.mp hmem
      exact hq1 ▸ List.mem_map_of_mem Prod.fst (eraseA_subset k rest q hq)

/-! ## SRT → VTT conversion (`srtToVtt`, main.go 441-476) -/

/-- Go `unicode.IsSpace` on the characters relevant to `strings.TrimSpace`. -/
def goIsSpace (c : Char) : Bool :=
  c == ' ' || c == '\t' || c == '\n' || c == '\x0B' || c == '\x0C' || c == '\r' ||
    c == '\u0085' || c == '\u00A0'

/-- Go `strings.TrimSpace`: drop leading and trailing white space. -/
def trimSpace (l : List Char) : List Char :=
  ((l.dropWhile goIsSpace).reverse.dropWhile goIsSpace).reverse

/-- Go `strings.Split(s, string(sep))` for a one-character separator. -/
def splitOnChar (sep : Char) : List Char → List (List Char)
  | [] => [[]]
  | c :: rest =>
    match splitOnChar sep rest with
    | [] => [[c]]
    | x :: xs => if c = sep then [] :: x :: xs else (c :: x) :: xs

/-- Go `strings.Split(s, "\n\n")`: leftmost-first, non-overlapping. -/
def splitBlocks : List Char → List (List Char)
  | [] => [[]]
  | '\n' :: '\n' :: rest => [] :: splitBlocks rest
  | c :: rest =>
    match splitBlocks rest with
    | [] => [[c]]
    | x :: xs => (c :: x) :: xs

/-- Go `strings.ReplaceAll(srt, "\r\n", "\n")`: leftmost-first scan. -/
def replaceCRLF : List Char → List Char
  | [] => []
  | '\r' :: '\n' :: rest => '\n' :: replaceCRLF rest
  | c :: rest => c :: replaceCRLF rest

/-- `strings.Contains(line, "-->")`: the timestamp-line test of `srtToVtt`. -/
def hasArrow (line : List Char) : Bool :=
  containsSeq ['-', '-', '>'] line

/-- The linear scan for the first timestamp line of a block
(`timeLineIndex` in `srtToVtt`), paired with the lines after it. -/
def findTimeLine : List (List Char) → Option (List Char × List (List Char))
  | [] => none
  | l :: ls => if hasArrow l then some (l, ls) else findTimeLine ls

/-- `strings.ReplaceAll(line, ",", ".")`. -/
def commasToDots (l : List Char) : List Char :=
  l.map (fun c => if c = ',' then '.' else c)

/-- What `srtToVtt` emits for one block: nothing for an all-space block or
a block without a `-->` line; otherwise the converted timestamp line, the
following text lines each terminated by a newline, and a blank terminator. -/
def processBlock (b : List Char) : Option (List Char) :=
  if trimSpace b = [] then none
  else
    match findTimeLine (splitOnChar '\n' (trimSpace b)) with
    | none => none
    | some (tl, rest) =>
      some (commasToDots tl ++ '\n' :: ((rest.map (fun l => l ++ ['\n'])).flatten ++ ['\n']))

/-- The `for _, block := range blocks` loop of `srtToVtt`, appending each
block's emission to the builder in order. -/
def vttBody : List (List Char) → List Char
  | [] => []
  | b :: bs =>
    (match processBlock b with
     | none => []
     | some s => s) ++ vttBody bs

/-- `srtToVtt` (main.go 441-476): fixed `WEBVTT` header, then the loop. -/
def srtToVtt (srt : List Char) : List Char :=
  "WEBVTT\n\n".toList ++ vttBody (splitBlocks (replaceCRLF srt))

theorem vttBody_eq_join_filterMap (bs : List (List Char)) :
    vttBody bs = ((bs.filterMap processBlock).flatten : List Char) := by
  induction bs with
  | nil => rfl
  | cons b bs ih =>
    simp only [vttBody, List.filterMap_cons]
    cases h : processBlock b with
    | none => simpa [h] using ih
    | some s => simp [h, ih]

theorem findTimeLine_isSome (ls : List (List Char)) :
    (findTimeLine ls).isSome = ls.any hasArrow := by
  induction ls with
  | nil => rfl
  | cons l ls ih =>
    by_cases h : hasArrow l = true
    · simp [findTimeLine, h]
    · simp only [Bool.not_eq_true] at h
      simp [findTimeLine, h, ih]

/-- C5: `srtToVtt` emits the fixed `WEBVTT` header followed, in block
order, by the emission of every block that contains a `-->` timestamp
line (the timestamp with commas turned into periods, the remaining text
lines, a blank terminator), dropping timestamp-less blocks; and the
reference input `1\n00:00:01,000 --> 00:00:02,000\nHello\n\n` converts
to the header, a blank line, the dotted timestamp, `Hello`, and a
trailing blank line. -/
theorem srtToVtt_spec :
    (∀ srt : List Char,
      srtToVtt srt =
        "WEBVTT\n\n".toList ++
          ((splitBlocks (replaceCRLF srt)).filterMap processBlock).flatten) ∧
    (∀ b : List Char,
      (processBlock b).isSome =
        (!(trimSpace b).isEmpty && (splitOnChar '\n' (trimSpace b)).any hasArrow)) ∧
    srtToVtt "1\n00:00:01,000 --> 00:00:02,000\nHello\n\n".toList =
      "WEBVTT\n\n00:00:01.000 --> 00:00:02.000\nHello\n\n".toList := by
  refine ⟨?_, ?_, ?_⟩
  · intro srt
    simp [srtToVtt, vttBody_eq_join_filterMap]
  · intro b
    by_cases ht : trimSpace b = []
    · simp [processBlock, ht, List.isEmpty]
    · rw [processBlock, if_neg ht]
      have hne : (trimSpace b).isEmpty = false := by
        cases htr : trimSpace b with
        | nil => exact absurd htr ht
        | cons c cs => rfl
      rw [hne]
      rw [← findTimeLine_isSome (splitOnChar '\n' (trimSpace b))]
      cases hf : findTimeLine (splitOnChar '\n' (trimSpace b)) with
      | none => simp [hf]
      | some p => simp [hf]
  · decide

/-! ## Extraction monitor (main.go 689-717) and the log poller (script.js) -/

/-- The outcome a poller infers from the extraction job's log. -/
inductive JobReport where
  | succeeded
  | failed
  | running
deriving DecidableEq, Repr

/-- The success marker the monitor appends on a verified non-empty output. -/
def successMarkerLog : List Char := "\n\nExtraction finished successfully.".toList

/-- The failure marker the monitor appends when the subprocess exited zero
but the output file is missing or empty. -/
def failMarkerMissingOutput : List Char :=
  "\n\nExtraction failed: Output file is missing or empty.".toList

/-- The failure marker the monitor appends when `cmd.Run()` returned an error. -/
def failMarkerExit (errText : List Char) : List Char :=
  "\n\nExtraction failed: ".toList ++ errText

/-- What the monitoring goroutine appends to the log after the subprocess
exits: `exitErr` is `cmd.Run()`'s error text, `outputSize` is `none` when
`os.Stat` on the output fails and otherwise the file size. -/
def monitorAppend (exitErr : Option (List Char)) (outputSize : Option Nat) : List Char :=
  match exitErr with
  | some e => failMarkerExit e
  | none =>
    match outputSize with
    | none => failMarkerMissingOutput
    | some 0 => failMarkerMissingOutput
    | some (_ + 1) => successMarkerLog

/-- The final log contents: the subprocess's own output followed by the
monitor's marker. -/
def monitorFinalLog (base : List Char) (exitErr : Option (List Char))
    (outputSize : Option Nat) : List Char :=
  base ++ monitorAppend exitErr outputSize

/-- The search string of `logText.includes('Extraction finished successfully')`. -/
def pollerSuccessText : List Char := "Extraction finished successfully".toList

/-- The search string of `logText.includes('Extraction failed')`. -/
def pollerFailText : List Char := "Extraction failed".toList

/-- The poller's state inference (script.js 1401-1417): success marker
first, then failure marker, otherwise still running/progress. -/
def pollerReport (logText : List Char) : JobReport :=
  if containsSeq pollerSuccessText logText then .succeeded
  else if containsSeq pollerFailText logText then .failed
  else .running

/-- C9: an extraction job whose subprocess exits with code zero but whose
output file is missing or has size zero gets the failure marker appended
to its log, never the success marker, and a poller reading the resulting
log (whose ffmpeg-produced part does not itself contain the success
phrase) reports the job failed, not succeeded. -/
theorem extraction_zero_output_reports_failed (base : List Char)
    (outputSize : Option Nat)
    (hbase : containsSeq pollerSuccessText base = false)
    (hsize : outputSize = none ∨ outputSize = some 0) :
    monitorAppend none outputSize = failMarkerMissingOutput ∧
    monitorAppend none outputSize ≠ successMarkerLog ∧
    pollerReport (monitorFinalLog base none outputSize) = .failed := by
  have happ : monitorAppend none outputSize = failMarkerMissingOutput := by
    rcases hsize with h | h <;> subst h <;> rfl
  refine ⟨happ, ?_, ?_⟩
  · rw [happ]
    intro h
    exact absurd h (by decide)
  · have hlog : monitorFinalLog base none outputSize = base ++ failMarkerMissingOutput := by
      simp [monitorFinalLog, happ]
    have hnl : ('\n' : Char) ∉ pollerSuccessText := by decide
    have hnosucc : containsSeq pollerSuccessText (base ++ failMarkerMissingOutput) = false := by
      by_contra hcon
      simp only [Bool.not_eq_false] at hcon
      have hsplit := containsSeq_append_cons hnl base
        ("\nExtraction failed: Output file is missing or empty.".toList) hcon
      rcases hsplit with h | h
      · rw [hbase] at h
        cases h
      · have hsplit2 := containsSeq_append_cons hnl []
          ("Extraction failed: Output file is missing or empty.".toList) (by simpa using h)
        rcases hsplit2 with h2 | h2
        · exact absurd h2 (by decide)
        · exact absurd h2 (by decide)
    have hfail : containsSeq pollerFailText (base ++ failMarkerMissingOutput) = true :=
      containsSeq_append_right (by decide) base
    rw [hlog]
    simp [pollerReport, hnosucc, hfail]

/-- Witness for C9 at a concrete log and a zero-size output file. -/
theorem extraction_zero_output_reports_failed_witness :
    containsSeq pollerSuccessText ("frame=0 fps=0.0 size= 0kB".toList) = false ∧
    pollerReport (monitorFinalLog ("frame=0 fps=0.0 size= 0kB".toList) none (some 0)) =
      .failed :=
  ⟨by decide,
   (extraction_zero_output_reports_failed ("frame=0 fps=0.0 size= 0kB".toList)
     (some 0) (by decide) (Or.inr rfl)).2.2⟩

/-! ## Range streaming (`streamHandler`, main.go 374-432) -/

/-- The streaming buffer size: `make([]byte, 1024*512)`. -/
def bufSize : Nat := 1024 * 512

/-- The end-of-range clamp of `streamHandler` (main.go 380-382):
`if end == 0 || end >= fileSize { end = fileSize - 1 }`.  A missing end
in the `Range` header leaves the `fmt.Sscanf` target at its zero value,
so it arrives here as `0`. -/
def clampEnd (e0 size : Int) : Int :=
  if e0 = 0 ∨ e0 ≥ size then size - 1 else e0

/-- The manual streaming loop of `streamHandler`: read at most
`min bufSize remaining` bytes from position `pos` of the file, write
them, and repeat until `remaining` bytes are written or the reader is
exhausted.  The fuel argument only bounds iterations; `remaining` units
always suffice because each successful read returns at least one byte. -/
def streamLoop : Nat → List Nat → Nat → Nat → List Nat
  | 0, _, _, _ => []
  | fuel + 1, file, pos, remaining =>
    if remaining = 0 then []
    else
      let chunk := (file.drop pos).take (min bufSize remaining)
      if chunk.length = 0 then []
      else chunk ++ streamLoop fuel file (pos + chunk.length) (remaining - chunk.length)

/-- The response `streamHandler` builds: status code, the
`Content-Range` triple when present, the `Content-Length` value, and the
bytes written to the connection. -/
structure StreamResponse where
  status : Nat
  contentRange : Option (Int × Int × Int)
  contentLength : Int
  body : List Nat
deriving Repr, DecidableEq

/-- `streamHandler`'s range handling (main.go 374-432): with a `Range`
header parsed as `bytes=start-end₀`, clamp the end, answer 206 with
`Content-Range: bytes start-end/fileSize` and `end-start+1` as the
length; with no header, answer 200 with the whole file. -/
def streamHandlerModel (rangeReq : Option (Int × Int)) (fileSize : Int)
    (file : List Nat) : StreamResponse :=
  match rangeReq with
  | some (s, e0) =>
    { status := 206
      contentRange := some (s, clampEnd e0 fileSize, fileSize)
      contentLength := clampEnd e0 fileSize - s + 1
      body := streamLoop (clampEnd e0 fileSize - s + 1).toNat file s.toNat
        (clampEnd e0 fileSize - s + 1).toNat }
  | none =>
    { status := 200, contentRange := none, contentLength := fileSize,
      body := streamLoop fileSize.toNat file 0 fileSize.toNat }

theorem streamLoop_eq_take {fuel : Nat} :
    ∀ {file : List Nat} {pos remaining : Nat},
      pos + remaining ≤ file.length → remaining ≤ fuel →
      streamLoop fuel file pos remaining = (file.drop pos).take remaining := by
  induction fuel with
  | zero =>
    intro file pos remaining _ hr
    have : remaining = 0 := Nat.le_zero.mp hr
    simp [streamLoop, this]
  | succ fuel ih =>
    intro file pos remaining hlen hr
    by_cases h0 : remaining = 0
    · simp [streamLoop, h0]
    · rw [streamLoop, if_neg h0]
      have hdroplen : (file.drop pos).length = file.length - pos := by
        simp [List.length_drop]
      have hrem : remaining ≤ (file.drop pos).length := by
        rw [hdroplen]
        omega
      have hm : min bufSize remaining ≤ (file.drop pos).length :=
        le_trans (Nat.min_le_right _ _) hrem
      have hchunklen : ((file.drop pos).take (min bufSize remaining)).length =
          min bufSize remaining := by
        rw [List.length_take]
        exact Nat.min_eq_left hm
      have hmpos : 0 < min bufSize remaining := by
        have h1 : 0 < bufSize := by decide
        have h2 : 0 < remaining := Nat.pos_of_ne_zero h0
        exact lt_min h1 h2
      have hne : ((file.drop pos).take (min bufSize remaining)).length ≠ 0 := by
        rw [hchunklen]
        omega
      rw [if_neg hne]
      rw [hchunklen]
      have hmle : min bufSize remaining ≤ remaining := Nat.min_le_right _ _
      rw [ih (by omega) (by omega)]
      rw [← List.drop_drop, ← List.take_add]
      congr 1
      omega

/-- C2: a stream request with `Range: bytes=start-end₀` on a file of the
given size clamps a missing (`0`) or out-of-bounds end to `size-1`,
answers 206 with `Content-Range: bytes start-end/size`, computes the
content length as `end-start+1`, and, when every read succeeds (the file
holds the requested bytes), writes exactly `end-start+1` body bytes. -/
theorem streamHandler_range_spec (s e0 size : Int) (file : List Nat)
    (hs : 0 ≤ s)
    (hse : s ≤ clampEnd e0 size)
    (hfile : (file.length : Int) = size) :
    (streamHandlerModel (some (s, e0)) size file).status = 206 ∧
    (streamHandlerModel (some (s, e0)) size file).contentRange =
      some (s, clampEnd e0 size, size) ∧
    (streamHandlerModel (some (s, e0)) size file).contentLength =
      clampEnd e0 size - s + 1 ∧
    ((streamHandlerModel (some (s, e0)) size file).body.length : Int) =
      clampEnd e0 size - s + 1 := by
  have he_lt : clampEnd e0 size < size := by
    rw [clampEnd]
    by_cases h : e0 = 0 ∨ e0 ≥ size
    · rw [if_pos h]
      omega
    · rw [if_neg h]
      push_neg at h
      exact h.2
  have hlen_nat : s.toNat + (clampEnd e0 size - s + 1).toNat ≤ file.length := by
    omega
  have hbody : (streamHandlerModel (some (s, e0)) size file).body =
      (file.drop s.toNat).take (clampEnd e0 size - s + 1).toNat :=
    streamLoop_eq_take hlen_nat le_rfl
  refine ⟨rfl, rfl, rfl, ?_⟩
  rw [hbody, List.length_take]
  have hmin : (clampEnd e0 size - s + 1).toNat ≤ (file.drop s.toNat).length := by
    rw [List.length_drop]
    omega
  rw [Nat.min_eq_left hmin]
  omega

/-- Witness for C2: `bytes=100-199` on a 1000-byte file yields 206,
`Content-Range: bytes 100-199/1000`, content length 100 and exactly 100
body bytes. -/
theorem streamHandler_range_spec_witness :
    (0 : Int) ≤ 100 ∧ (100 : Int) ≤ clampEnd 199 1000 ∧
    (((List.replicate 1000 (0 : Nat)).length : Int) = 1000) ∧
    (streamHandlerModel (some (100, 199)) 1000 (List.replicate 1000 0)).status = 206 ∧
    (streamHandlerModel (some (100, 199)) 1000 (List.replicate 1000 0)).contentRange =
      some (100, 199, 1000) ∧
    (streamHandlerModel (some (100, 199)) 1000 (List.replicate 1000 0)).contentLength = 100 ∧
    ((streamHandlerModel (some (100, 199)) 1000 (List.replicate 1000 0)).body.length : Int) =
      100 := by
  have hfile : ((List.replicate 1000 (0 : Nat)).length : Int) = 1000 := by
    rw [List.length_replicate]
    decide
  obtain ⟨h1, h2, h3, h4⟩ := streamHandler_range_spec 100 199 1000
    (List.replicate 1000 0) (by decide) (by decide) hfile
  have hc : clampEnd 199 1000 = (199 : Int) := by decide
  refine ⟨by decide, by decide, hfile, h1, ?_, ?_, ?_⟩
  · rw [h2, hc]
  · rw [h3, hc]
    decide
  · rw [h4, hc]
    decide

/-! ## Session cache and tiered resolver (`getTorrentFromMagnet`, main.go 209-280) -/

/-- A cache entry (`cacheEntry`, main.go 46-52): the torrent handle
(identified by a number standing for the `*torrent.Torrent` pointer) and
the speed-sampling / access bookkeeping guarded by the entry's mutex. -/
structure CacheEntry where
  torrentId : Nat
  prevBytesRead : Int
  prevReadTime : Int
  lastAccessed : Int
deriving Repr, DecidableEq

/-- The LRU cache contents, most recently used first. -/
abbrev Cache := List (List Char × CacheEntry)

/-- The LotusDB metadata store: infohash hex string to metainfo blob. -/
abbrev MetaStore := List (List Char × List Char)

/-- `lru.NewWithEvict(2, ...)`: the cache holds at most two entries. -/
def lruCapacity : Nat := 2

/-- `tc.cache.Add(key, entry)`: insert (or refresh) at the
most-recently-used position and return the entries evicted by overflow. -/
def lruAdd (k : List Char) (e : CacheEntry) (c : Cache) :
    Cache × List (List Char × CacheEntry) :=
  (((k, e) :: eraseA k c).take lruCapacity, ((k, e) :: eraseA k c).drop lruCapacity)

/-- Which of the three events of the cold path's `select` fires first:
`t.GotInfo()`, `tc.ctx.Done()`, or `time.After(30 * time.Second)`. -/
inductive ColdEvent where
  | infoKnown
  | cancelled
  | timedOut
deriving DecidableEq, Repr

/-- The fixed cold-path timeout: `case <-time.After(30 * time.Second)`. -/
def infoTimeoutSeconds : Nat := 30

/-- The errors `getTorrentFromMagnet` can return once the magnet link has
parsed: `AddTorrent` failure on the warm path, `AddMagnet` failure,
context cancellation, and the 30-second info timeout. -/
inductive ResolveError where
  | addFromMetaFailed
  | addMagnetFailed
  | cancelled
  | timeout
deriving DecidableEq, Repr

/-- The resolver-visible state: cache contents, metadata store, counters
for store reads/write attempts and cold fetches (the collaborator call
counters of the spec), the dropped torrent handles, and a fresh-handle
counter standing for allocation of `*torrent.Torrent` values. -/
structure ResolveState where
  cache : Cache
  db : MetaStore
  dbGets : Nat
  dbPuts : Nat
  coldFetches : Nat
  dropped : List Nat
  nextId : Nat
deriving Repr, DecidableEq

/-- Torrent ids held by evicted cache entries (their `Drop()` calls). -/
def evictIds (ev : List (List Char × CacheEntry)) : List Nat :=
  ev.map (fun p => p.2.torrentId)

/-- Step 3 of `getTorrentFromMagnet` (main.go 246-279): `AddMagnet`, then
block on the `select`.  `addOk` is `AddMagnet` succeeding, `persistOk`
collapses the metainfo buffer write and `db.Put` both succeeding (on
failure the code logs and continues without a store entry), `blob` is the
serialized metainfo, and `ev` says which event of the `select` fires. -/
def coldResolve (key : List Char) (now : Int) (addOk persistOk : Bool)
    (ev : ColdEvent) (blob : List Char) (s : ResolveState) :
    Except ResolveError Nat × ResolveState :=
  let s1 : ResolveState := { s with coldFetches := s.coldFetches + 1 }
  if addOk = false then (.error .addMagnetFailed, s1)
  else
    let tid := s1.nextId
    let s2 : ResolveState := { s1 with nextId := tid + 1 }
    match ev with
    | .infoKnown =>
      let s3 : ResolveState := { s2 with
        dbPuts := s2.dbPuts + 1
        db := if persistOk then (key, blob) :: eraseA key s2.db else s2.db }
      let entry : CacheEntry :=
        { torrentId := tid, prevBytesRead := 0, prevReadTime := now, lastAccessed := now }
      (.ok tid, { s3 with
        cache := (lruAdd key entry s3.cache).1
        dropped := evictIds (lruAdd key entry s3.cache).2 ++ s3.dropped })
    | .cancelled => (.error .cancelled, s2)
    | .timedOut => (.error .timeout, { s2 with dropped := tid :: s2.dropped })

/-- `getTorrentFromMagnet` (main.go 209-280) after magnet parsing: hot
in-memory lookup (bump `lastAccessed` under the entry's lock, move to the
front of the LRU as `cache.Get` does), warm LotusDB lookup (`loadOk` is
`metainfo.Load` succeeding, on failure the code logs and falls back to
the magnet, and `addTorrentOk` is `AddTorrent` succeeding; `GotInfo` is
immediate on this path), then the cold magnet path. -/
def resolve (key : List Char) (now : Int) (loadOk addTorrentOk addOk persistOk : Bool)
    (ev : ColdEvent) (blob : List Char) (s : ResolveState) :
    Except ResolveError Nat × ResolveState :=
  match lookupA key s.cache with
  | some e =>
    (.ok e.torrentId,
     { s with cache := (key, { e with lastAccessed := now }) :: eraseA key s.cache })
  | none =>
    match lookupA key s.db with
    | some _ =>
      if loadOk then
        if addTorrentOk then
          (.ok s.nextId, { s with
            dbGets := s.dbGets + 1
            nextId := s.nextId + 1
            cache := (lruAdd key ⟨s.nextId, 0, now, now⟩ s.cache).1
            dropped := evictIds (lruAdd key ⟨s.nextId, 0, now, now⟩ s.cache).2 ++
              s.dropped })
        else (.error .addFromMetaFailed, { s with dbGets := s.dbGets + 1 })
      else coldResolve key now addOk persistOk ev blob { s with dbGets := s.dbGets + 1 }
    | none => coldResolve key now addOk persistOk ev blob { s with dbGets := s.dbGets + 1 }

/-- C1: resolving a key whose session is cached returns that entry's
torrent identity, performs no metadata-store read or write and no cold
fetch, drops nothing, leaves every cache entry unchanged except for
bumping the hit entry's `lastAccessed` to the current time, and a
repeated resolve returns the very same torrent identity. -/
theorem resolve_hot_path (key : List Char) (now : Int)
    (loadOk addTorrentOk addOk persistOk : Bool) (ev : ColdEvent)
    (blob : List Char) (s : ResolveState) (e : CacheEntry)
    (hcached : lookupA key s.cache = some e) :
    (resolve key now loadOk addTorrentOk addOk persistOk ev blob s).1 = .ok e.torrentId ∧
    (resolve key now loadOk addTorrentOk addOk persistOk ev blob s).2.dbGets = s.dbGets ∧
    (resolve key now loadOk addTorrentOk addOk persistOk ev blob s).2.dbPuts = s.dbPuts ∧
    (resolve key now loadOk addTorrentOk addOk persistOk ev blob s).2.coldFetches =
      s.coldFetches ∧
    (resolve key now loadOk addTorrentOk addOk persistOk ev blob s).2.db = s.db ∧
    (resolve key now loadOk addTorrentOk addOk persistOk ev blob s).2.dropped = s.dropped ∧
    (∀ k' : List Char,
      lookupA k' (resolve key now loadOk addTorrentOk addOk persistOk ev blob s).2.cache =
        if k' = key then some { e with lastAccessed := now } else lookupA k' s.cache) ∧
    (∀ (now2 : Int) (l2 a2 m2 p2 : Bool) (ev2 : ColdEvent) (b2 : List Char),
      (resolve key now2 l2 a2 m2 p2 ev2 b2
        (resolve key now loadOk addTorrentOk addOk persistOk ev blob s).2).1 =
          .ok e.torrentId) := by
  have hres : resolve key now loadOk addTorrentOk addOk persistOk ev blob s =
      (.ok e.torrentId,
       { s with cache := (key, { e with lastAccessed := now }) :: eraseA key s.cache }) := by
    rw [resolve, hcached]
  refine ⟨by rw [hres], by rw [hres], by rw [hres], by rw [hres], by rw [hres],
    by rw [hres], ?_, ?_⟩
  · intro k'
    rw [hres]
    by_cases hk : k' = key
    · subst hk
      simp [lookupA]
    · simp only [if_neg hk]
      have hk2 : key ≠ k' := fun hh => hk hh.symm
      simp only [lookupA_cons, if_neg hk2]
      exact lookupA_eraseA_ne hk s.cache
  · intro now2 l2 a2 m2 p2 ev2 b2
    rw [hres]
    have hc2 : lookupA key ((key, { e with lastAccessed := now }) :: eraseA key s.cache) =
        some { e with lastAccessed := now } := by
      simp [lookupA]
    rw [resolve]
    rw [hc2]

/-- Witness for C1 on a one-entry cache: both resolves return torrent 7
and the store counters stay at zero. -/
theorem resolve_hot_path_witness :
    lookupA "aa".toList
        [("aa".toList, (⟨7, 0, 0, 0⟩ : CacheEntry))] = some ⟨7, 0, 0, 0⟩ ∧
    (resolve "aa".toList 5 true true true true .infoKnown []
        ⟨[("aa".toList, ⟨7, 0, 0, 0⟩)], [], 0, 0, 0, [], 10⟩).1 = .ok 7 ∧
    (resolve "aa".toList 5 true true true true .infoKnown []
        ⟨[("aa".toList, ⟨7, 0, 0, 0⟩)], [], 0, 0, 0, [], 10⟩).2.coldFetches = 0 ∧
    (resolve "aa".toList 5 true true true true .infoKnown []
        ⟨[("aa".toList, ⟨7, 0, 0, 0⟩)], [], 0, 0, 0, [], 10⟩).2.dbGets = 0 ∧
    (resolve "aa".toList 9 false false false false .timedOut []
        (resolve "aa".toList 5 true true true true .infoKnown []
          ⟨[("aa".toList, ⟨7, 0, 0, 0⟩)], [], 0, 0, 0, [], 10⟩).2).1 = .ok 7 := by
  have h := resolve_hot_path "aa".toList 5 true true true true .infoKnown []
    ⟨[("aa".toList, ⟨7, 0, 0, 0⟩)], [], 0, 0, 0, [], 10⟩ ⟨7, 0, 0, 0⟩ (by decide)
  exact ⟨by decide, h.1, h.2.2.2.1, h.2.1,
    h.2.2.2.2.2.2.2 9 false false false false .timedOut []⟩

/-- C8: when the cold path's 30-second timeout fires first, the resolver
drops the in-flight handle, returns the timeout error (distinct from
cancellation), and neither inserts a cache entry nor persists metadata. -/
theorem resolve_cold_timeout (key : List Char) (now : Int)
    (loadOk addTorrentOk persistOk : Bool) (blob : List Char) (s : ResolveState)
    (hmiss : lookupA key s.cache = none)
    (hwarm : lookupA key s.db = none ∨ loadOk = false) :
    (resolve key now loadOk addTorrentOk true persistOk .timedOut blob s).1 =
      .error .timeout ∧
    (resolve key now loadOk addTorrentOk true persistOk .timedOut blob s).2.cache =
      s.cache ∧
    (resolve key now loadOk addTorrentOk true persistOk .timedOut blob s).2.db = s.db ∧
    (resolve key now loadOk addTorrentOk true persistOk .timedOut blob s).2.dbPuts =
      s.dbPuts ∧
    (resolve key now loadOk addTorrentOk true persistOk .timedOut blob s).2.dropped =
      s.nextId :: s.dropped ∧
    ResolveError.timeout ≠ ResolveError.cancelled ∧
    infoTimeoutSeconds = 30 := by
  have hcold : resolve key now loadOk addTorrentOk true persistOk .timedOut blob s =
      coldResolve key now true persistOk .timedOut blob
        { s with dbGets := s.dbGets + 1 } := by
    cases hv : lookupA key s.db with
    | none =>
      rw [resolve, hmiss, hv]
    | some b =>
      rcases hwarm with h | h
      · rw [hv] at h
        cases h
      · subst h
        rw [resolve, hmiss, hv]
        rfl
  have hrun : coldResolve key now true persistOk .timedOut blob
      { s with dbGets := s.dbGets + 1 } =
      (.error .timeout,
       { s with
         dbGets := s.dbGets + 1
         coldFetches := s.coldFetches + 1
         nextId := s.nextId + 1
         dropped := s.nextId :: s.dropped }) := by
    rw [coldResolve]
    rfl
  rw [hcold, hrun]
  exact ⟨rfl, rfl, rfl, rfl, rfl, by decide, rfl⟩

/-- Witness for C8 from an empty cache and store. -/
theorem resolve_cold_timeout_witness :
    lookupA "aa".toList (⟨[], [], 0, 0, 0, [], 4⟩ : ResolveState).cache = none ∧
    (resolve "aa".toList 5 true true true true .timedOut []
      ⟨[], [], 0, 0, 0, [], 4⟩).1 = .error .timeout ∧
    (resolve "aa".toList 5 true true true true .timedOut []
      ⟨[], [], 0, 0, 0, [], 4⟩).2.cache = [] ∧
    (resolve "aa".toList 5 true true true true .timedOut []
      ⟨[], [], 0, 0, 0, [], 4⟩).2.dropped = [4] := by
  have h := resolve_cold_timeout "aa".toList 5 true true true []
    ⟨[], [], 0, 0, 0, [], 4⟩ (by decide) (Or.inl (by decide))
  exact ⟨by decide, h.1, h.2.1, h.2.2.2.2.1⟩

/-! ## Inactivity sweeper (`cleanupInactiveTorrents`, main.go 969-1007; startup guard, main.go 1092-1096) -/

/-- The `main` guard `if *cleanupInactiveAfter > 0` that starts the
periodic cleanup goroutine. -/
def sweeperEnabled (threshold : Int) : Bool :=
  decide (0 < threshold)

/-- The scan phase: keys of entries whose idle time (now minus
`lastAccessed`, read under the entry's lock) strictly exceeds the
threshold. -/
def scanIdleKeys (now threshold : Int) (c : Cache) : List (List Char) :=
  (c.filter (fun p => decide (now - p.2.lastAccessed > threshold))).map Prod.fst

/-- The act phase: for each collected key still cached, drop the torrent,
remove the cache entry, and delete its metadata-store entry; returns the
resulting cache and store and the dropped torrent ids. -/
def dropKeys : List (List Char) → Cache → MetaStore → Cache × MetaStore × List Nat
  | [], c, db => (c, db, [])
  | k :: ks, c, db =>
    match lookupA k c with
    | some e =>
      ((dropKeys ks (eraseA k c) (eraseA k db)).1,
       (dropKeys ks (eraseA k c) (eraseA k db)).2.1,
       e.torrentId :: (dropKeys ks (eraseA k c) (eraseA k db)).2.2)
    | none => dropKeys ks c db

/-- One sweep of `cleanupInactiveTorrents`: scan, then act. -/
def sweepOnce (now threshold : Int) (c : Cache) (db : MetaStore) :
    Cache × MetaStore × List Nat :=
  dropKeys (scanIdleKeys now threshold c) c db

theorem dropKeys_cache_none {k : List Char} :
    ∀ (ks : List (List Char)) (c : Cache) (db : MetaStore),
      lookupA k c = none → lookupA k (dropKeys ks c db).1 = none := by
  intro ks
  induction ks with
  | nil => intro c db h; exact h
  | cons k1 ks ih =>
    intro c db h
    rw [dropKeys]
    cases hv : lookupA k1 c with
    | none => exact ih c db h
    | some e =>
      have hk : k ≠ k1 := by
        intro hh
        subst hh
        rw [h] at hv
        cases hv
      exact ih _ _ (by rw [lookupA_eraseA_ne hk]; exact h)

theorem lookupA_eraseA_none {β : Type} {k k1 : List Char}
    {m : List (List Char × β)} (h : lookupA k m = none) :
    lookupA k (eraseA k1 m) = none := by
  rw [lookupA_eq_none_iff] at h ⊢
  intro hm
  obtain ⟨q, hq, hqk⟩ := List.mem_map.mp hm
  exact h (hqk ▸ List.mem_map_of_mem Prod.fst (eraseA_subset k1 m q hq))

theorem dropKeys_db_none {k : List Char} :
    ∀ (ks : List (List Char)) (c : Cache) (db : MetaStore),
      lookupA k db = none → lookupA k (dropKeys ks c db).2.1 = none := by
  intro ks
  induction ks with
  | nil => intro c db h; exact h
  | cons k1 ks ih =>
    intro c db h
    rw [dropKeys]
    cases hv : lookupA k1 c with
    | none => exact ih c db h
    | some e => exact ih _ _ (lookupA_eraseA_none h)

theorem dropKeys_not_mem {k : List Char} :
    ∀ (ks : List (List Char)) (c : Cache) (db : MetaStore), k ∉ ks →
      lookupA k (dropKeys ks c db).1 = lookupA k c ∧
      lookupA k (dropKeys ks c db).2.1 = lookupA k db := by
  intro ks
  induction ks with
  | nil => intro c db _; exact ⟨rfl, rfl⟩
  | cons k1 ks ih =>
    intro c db hnm
    have hk : k ≠ k1 := fun hh => hnm (hh ▸ List.mem_cons_self k1 ks)
    have hks : k ∉ ks := fun hh => hnm (List.mem_cons_of_mem _ hh)
    rw [dropKeys]
    cases hv : lookupA k1 c with
    | none => exact ih c db hks
    | some e =>
      obtain ⟨h1, h2⟩ := ih (eraseA k1 c) (eraseA k1 db) hks
      exact ⟨by rw [h1, lookupA_eraseA_ne hk],
             by rw [h2, lookupA_eraseA_ne hk]⟩

theorem dropKeys_mem {k : List Char} :
    ∀ (ks : List (List Char)) (c : Cache) (db : MetaStore),
      k ∈ ks → ks.Nodup → (c.map Prod.fst).Nodup → (db.map Prod.fst).Nodup →
      (∃ e, lookupA k c = some e) →
      lookupA k (dropKeys ks c db).1 = none ∧
      lookupA k (dropKeys ks c db).2.1 = none := by
  intro ks
  induction ks with
  | nil => intro c db hm; exact absurd hm (List.not_mem_nil k)
  | cons k1 ks ih =>
    intro c db hm hnd hc hdb hsome
    obtain ⟨e, he⟩ := hsome
    rcases List.mem_cons.mp hm with h | h
    · subst h
      rw [dropKeys, he]
      constructor
      · exact dropKeys_cache_none ks _ _ (lookupA_eraseA_self hc)
      · exact dropKeys_db_none ks _ _ (lookupA_eraseA_self hdb)
    · have hk : k ≠ k1 := by
        intro hh
        subst hh
        exact (List.nodup_cons.mp hnd).1 h
      rw [dropKeys]
      cases hv : lookupA k1 c with
      | none =>
        exact ih c db h (List.nodup_cons.mp hnd).2 hc hdb ⟨e, he⟩
      | some e1 =>
        refine ih _ _ h (List.nodup_cons.mp hnd).2 (nodupKeys_eraseA k1 hc)
          (nodupKeys_eraseA k1 hdb) ⟨e, ?_⟩
        rw [lookupA_eraseA_ne hk]
        exact he

theorem scanIdleKeys_nodup (now threshold : Int) {c : Cache}
    (hc : (c.map Prod.fst).Nodup) : (scanIdleKeys now threshold c).Nodup := by
  have hsub : List.Sublist
      ((c.filter (fun p => decide (now - p.2.lastAccessed > threshold))).map Prod.fst)
      (c.map Prod.fst) :=
    List.Sublist.map Prod.fst (List.filter_sublist c)
  exact hc.sublist hsub

theorem mem_scanIdleKeys_iff (now threshold : Int) {c : Cache} {k : List Char}
    (hc : (c.map Prod.fst).Nodup) {e : CacheEntry} (he : lookupA k c = some e) :
    k ∈ scanIdleKeys now threshold c ↔ now - e.lastAccessed > threshold := by
  constructor
  · intro hm
    obtain ⟨p, hp, hpk⟩ := List.mem_map.mp hm
    obtain ⟨hpc, hdec⟩ := List.mem_filter.mp hp
    obtain ⟨k0, e0⟩ := p
    have hk0 : k0 = k := hpk
    subst hk0
    have : lookupA k0 c = some e0 := lookupA_eq_of_mem_nodup hc hpc
    rw [he] at this
    injection this with hh
    subst hh
    exact of_decide_eq_true hdec
  · intro hidle
    refine List.mem_map.mpr ⟨(k, e), List.mem_filter.mpr ⟨lookupA_some_mem he, ?_⟩, rfl⟩
    exact decide_eq_true hidle

/-- C7: the startup guard never starts the sweeper for a threshold that
is not positive, and one sweep evicts exactly the entries idle strictly
longer than the threshold, deleting each evicted key's metadata-store
entry and leaving every other entry (and its store entry) in place. -/
theorem sweeper_spec (now threshold : Int) (c : Cache) (db : MetaStore)
    (hc : (c.map Prod.fst).Nodup) (hdb : (db.map Prod.fst).Nodup) :
    (threshold ≤ 0 → sweeperEnabled threshold = false) ∧
    (∀ (k : List Char) (e : CacheEntry), lookupA k c = some e →
      (now - e.lastAccessed > threshold →
        lookupA k (sweepOnce now threshold c db).1 = none ∧
        lookupA k (sweepOnce now threshold c db).2.1 = none) ∧
      (¬ (now - e.lastAccessed > threshold) →
        lookupA k (sweepOnce now threshold c db).1 = some e ∧
        lookupA k (sweepOnce now threshold c db).2.1 = lookupA k db)) := by
  constructor
  · intro hle
    simp [sweeperEnabled]
    omega
  · intro k e he
    constructor
    · intro hidle
      have hmem : k ∈ scanIdleKeys now threshold c :=
        (mem_scanIdleKeys_iff now threshold hc he).mpr hidle
      exact dropKeys_mem (scanIdleKeys now threshold c) c db hmem
        (scanIdleKeys_nodup now threshold hc) hc hdb ⟨e, he⟩
    · intro hstay
      have hnm : k ∉ scanIdleKeys now threshold c := by
        intro hm
        exact hstay ((mem_scanIdleKeys_iff now threshold hc he).mp hm)
      obtain ⟨h1, h2⟩ := dropKeys_not_mem (scanIdleKeys now threshold c) c db hnm
      constructor
      · show lookupA k (dropKeys (scanIdleKeys now threshold c) c db).1 = some e
        rw [h1, he]
      · show lookupA k (dropKeys (scanIdleKeys now threshold c) c db).2.1 = lookupA k db
        exact h2

/-- Witness for C7: of two cached entries at threshold 10 and time 100,
the one idle 50 is evicted together with its store entry, the one idle 5
stays with its store entry; a non-positive threshold disables the
sweeper. -/
theorem sweeper_spec_witness :
    ([("aa".toList, (⟨1, 0, 0, 50⟩ : CacheEntry)), ("bb".toList, ⟨2, 0, 0, 95⟩)].map
      Prod.fst).Nodup ∧
    ([("aa".toList, "ma".toList), ("bb".toList, "mb".toList)].map Prod.fst).Nodup ∧
    lookupA "aa".toList
      (sweepOnce 100 10 [("aa".toList, ⟨1, 0, 0, 50⟩), ("bb".toList, ⟨2, 0, 0, 95⟩)]
        [("aa".toList, "ma".toList), ("bb".toList, "mb".toList)]).1 = none ∧
    lookupA "aa".toList
      (sweepOnce 100 10 [("aa".toList, ⟨1, 0, 0, 50⟩), ("bb".toList, ⟨2, 0, 0, 95⟩)]
        [("aa".toList, "ma".toList), ("bb".toList, "mb".toList)]).2.1 = none ∧
    lookupA "bb".toList
      (sweepOnce 100 10 [("aa".toList, ⟨1, 0, 0, 50⟩), ("bb".toList, ⟨2, 0, 0, 95⟩)]
        [("aa".toList, "ma".toList), ("bb".toList, "mb".toList)]).1 =
      some ⟨2, 0, 0, 95⟩ ∧
    lookupA "bb".toList
      (sweepOnce 100 10 [("aa".toList, ⟨1, 0, 0, 50⟩), ("bb".toList, ⟨2, 0, 0, 95⟩)]
        [("aa".toList, "ma".toList), ("bb".toList, "mb".toList)]).2.1 =
      some "mb".toList ∧
    sweeperEnabled 0 = false := by
  have h := sweeper_spec 100 10
    [("aa".toList, ⟨1, 0, 0, 50⟩), ("bb".toList, ⟨2, 0, 0, 95⟩)]
    [("aa".toList, "ma".toList), ("bb".toList, "mb".toList)]
    (by decide) (by decide)
  have ha := h.2 "aa".toList ⟨1, 0, 0, 50⟩ (by decide)
  have hb := h.2 "bb".toList ⟨2, 0, 0, 95⟩ (by decide)
  obtain ⟨ha1, ha2⟩ := ha.1 (by decide)
  obtain ⟨hb1, hb2⟩ := hb.2 (by decide)
  refine ⟨by decide, by decide, ha1, ha2, hb1, by rw [hb2]; decide,
    (sweeper_spec 100 0 [] [] (by decide) (by decide)).1 (by decide)⟩

/-! ## Eviction cleanup (`cleanupTorrentAssociatedFiles`, main.go 478-517) -/

/-- The key mark of a session: its infohash followed by the underscore
separator, as tested by `strings.HasPrefix(key, infoHash+"_")` and by
the glob patterns `infoHash_*.ass` / `infoHash_*.log`. -/
def sessionMark (infoHash : List Char) : List Char :=
  infoHash ++ ['_']

/-- The VTT-map half of `cleanupTorrentAssociatedFiles`: collect the
entries whose key carries the session's mark, delete their files, and
remove them from the map.  Returns the surviving map and the deleted
file paths. -/
def cleanupVttMap (infoHash : List Char) (m : List (List Char × List Char)) :
    List (List Char × List Char) × List (List Char) :=
  (m.filter (fun p => !(startsWith (sessionMark infoHash) p.1)),
   (m.filter (fun p => startsWith (sessionMark infoHash) p.1)).map Prod.snd)

/-- Whether a file name matches the glob `infoHash_*<ext>` (the `*` spans
no separator because these are bare names in the download directory):
it carries the session mark and the rest ends with the extension. -/
def matchesGlobExt (infoHash ext f : List Char) : Bool :=
  startsWith (sessionMark infoHash) f &&
    endsWith ext (f.drop (sessionMark infoHash).length)

/-- `.ass` extraction outputs. -/
def extAss : List Char := ".ass".toList

/-- `.log` extraction logs. -/
def extLog : List Char := ".log".toList

/-- The `.ass`/`.log` half of `cleanupTorrentAssociatedFiles`: remove
every file of the download directory matching either glob for this
session.  Returns the surviving files and the deleted ones. -/
def cleanupAssLogFiles (infoHash : List Char) (files : List (List Char)) :
    List (List Char) × List (List Char) :=
  (files.filter
     (fun f => !(matchesGlobExt infoHash extAss f || matchesGlobExt infoHash extLog f)),
   files.filter
     (fun f => matchesGlobExt infoHash extAss f || matchesGlobExt infoHash extLog f))

theorem sessionMark_eq_of_startsWith {K K' l : List Char}
    (hK : startsWith (sessionMark K) l = true)
    (hK' : startsWith (sessionMark K') l = true)
    (hlen : K'.length = K.length) : K' = K := by
  have hmark : sessionMark K' = sessionMark K :=
    startsWith_eq_of_length_eq hK' hK (by simp [sessionMark, hlen])
  have := hmark
  rw [sessionMark, sessionMark] at this
  exact List.append_inj_left this (by simp [hlen])

/-- C4: cleaning up a session removes from the VTT map exactly the
artifacts whose key carries that session's mark (deleting their files)
and deletes exactly the download-directory files matching its
`_*.ass` / `_*.log` globs, while every artifact and file carrying a
different session's mark (infohashes all have the same length) is left
untouched. -/
theorem cleanup_deletes_only_own_session (K K' : List Char)
    (m : List (List Char × List Char)) (files : List (List Char))
    (hlen : K'.length = K.length) (hne : K' ≠ K) :
    (∀ p ∈ m, startsWith (sessionMark K) p.1 = true →
       p ∉ (cleanupVttMap K m).1 ∧ p.2 ∈ (cleanupVttMap K m).2) ∧
    (∀ p ∈ m, startsWith (sessionMark K') p.1 = true → p ∈ (cleanupVttMap K m).1) ∧
    (∀ f ∈ files, (matchesGlobExt K extAss f || matchesGlobExt K extLog f) = true →
       f ∉ (cleanupAssLogFiles K files).1 ∧ f ∈ (cleanupAssLogFiles K files).2) ∧
    (∀ f ∈ files, startsWith (sessionMark K') f = true →
       f ∈ (cleanupAssLogFiles K files).1) := by
  refine ⟨?_, ?_, ?_, ?_⟩
  · intro p hp hmark
    constructor
    · intro hin
      have := (List.mem_filter.mp hin).2
      rw [hmark] at this
      cases this
    · exact List.mem_map_of_mem Prod.snd (List.mem_filter.mpr ⟨hp, hmark⟩)
  · intro p hp hmark
    refine List.mem_filter.mpr ⟨hp, ?_⟩
    cases hK : startsWith (sessionMark K) p.1 with
    | false => rfl
    | true => exact absurd (sessionMark_eq_of_startsWith hK hmark hlen) hne
  · intro f hf hmatch
    constructor
    · intro hin
      have := (List.mem_filter.mp hin).2
      rw [hmatch] at this
      cases this
    · exact List.mem_filter.mpr ⟨hf, hmatch⟩
  · intro f hf hmark
    refine List.mem_filter.mpr ⟨hf, ?_⟩
    cases hK : startsWith (sessionMark K) f with
    | false => simp [matchesGlobExt, hK]
    | true => exact absurd (sessionMark_eq_of_startsWith hK hmark hlen) hne

/-- Witness for C4 with two equal-length session keys: session `aa`'s
VTT entry and `.ass`/`.log` files are deleted, session `bb`'s survive. -/
theorem cleanup_deletes_only_own_session_witness :
    ("bb".toList.length = "aa".toList.length) ∧
    ("bb".toList ≠ "aa".toList) ∧
    (cleanupVttMap "aa".toList
       [("aa_h1.vtt".toList, "/d/aa_h1.vtt".toList),
        ("bb_h2.vtt".toList, "/d/bb_h2.vtt".toList)]).1 =
      [("bb_h2.vtt".toList, "/d/bb_h2.vtt".toList)] ∧
    (cleanupVttMap "aa".toList
       [("aa_h1.vtt".toList, "/d/aa_h1.vtt".toList),
        ("bb_h2.vtt".toList, "/d/bb_h2.vtt".toList)]).2 = ["/d/aa_h1.vtt".toList] ∧
    ("aa_0.ass".toList ∈ (cleanupAssLogFiles "aa".toList
       ["aa_0.ass".toList, "aa_0.log".toList, "bb_0.ass".toList]).2) ∧
    ("bb_0.ass".toList ∈ (cleanupAssLogFiles "aa".toList
       ["aa_0.ass".toList, "aa_0.log".toList, "bb_0.ass".toList]).1) := by
  have h := cleanup_deletes_only_own_session "aa".toList "bb".toList
    [("aa_h1.vtt".toList, "/d/aa_h1.vtt".toList),
     ("bb_h2.vtt".toList, "/d/bb_h2.vtt".toList)]
    ["aa_0.ass".toList, "aa_0.log".toList, "bb_0.ass".toList]
    (by decide) (by decide)
  refine ⟨by decide, by decide, by decide, by decide, ?_, ?_⟩
  · exact (h.2.2.1 "aa_0.ass".toList (by decide) (by decide)).2
  · exact h.2.2.2 "bb_0.ass".toList (by decide) (by decide)

/-! ## Content-addressed VTT store (`downloadSubtitleHandler`, main.go 569-604) -/

/-- Insert or overwrite a map entry, mirroring a Go map assignment. -/
def insertA {β : Type} (k : List Char) (v : β) (m : List (List Char × β)) :
    List (List Char × β) :=
  (k, v) :: eraseA k m

/-- The deterministic artifact key
`fmt.Sprintf("%s_%s.vtt", infoHash, hex(sha256(infoHash+filePath)))`.
The hex digest is the abstract function `hashHex` (sha256 is an external
deterministic function). -/
def mkVttKey (hashHex : List Char → List Char) (infoHash filePath : List Char) :
    List Char :=
  infoHash ++ '_' :: (hashHex (infoHash ++ filePath) ++ ".vtt".toList)

/-- The deterministic artifact path `filepath.Join(tc.downloadDir, vttFilename)`
(the key contains no separator, so the join is plain concatenation). -/
def vttPath (hashHex : List Char → List Char)
    (downloadDir infoHash filePath : List Char) : List Char :=
  downloadDir ++ '/' :: mkVttKey hashHex infoHash filePath

/-- The artifact-relevant state of `downloadSubtitleHandler`: the files
present in the download directory (path to contents) and `tc.vttFileMap`. -/
structure ArtifactState where
  fsFiles : List (List Char × List Char)
  vttMap : List (List Char × List Char)
deriving Repr, DecidableEq

/-- The write-back tail of `downloadSubtitleHandler` (main.go 569-604):
compute the deterministic key and path; if a file already exists at the
path (`os.Stat` succeeds), only register the map entry and return the
key; otherwise write the file, register the map entry, and return the
key. -/
def storeVtt (hashHex : List Char → List Char)
    (downloadDir infoHash filePath vttContent : List Char)
    (st : ArtifactState) : List Char × ArtifactState :=
  match lookupA (vttPath hashHex downloadDir infoHash filePath) st.fsFiles with
  | some _ =>
    (mkVttKey hashHex infoHash filePath,
     { st with
       vttMap := insertA (mkVttKey hashHex infoHash filePath)
         (vttPath hashHex downloadDir infoHash filePath) st.vttMap })
  | none =>
    (mkVttKey hashHex infoHash filePath,
     { fsFiles := insertA (vttPath hashHex downloadDir infoHash filePath)
         vttContent st.fsFiles
       vttMap := insertA (mkVttKey hashHex infoHash filePath)
         (vttPath hashHex downloadDir infoHash filePath) st.vttMap })

/-- C6: converting the same (session, sourcePath) twice yields the
identical deterministic artifact key both times, and the second request
does not rewrite the file: the download directory's contents after the
second call are exactly those after the first. -/
theorem storeVtt_idempotent (hashHex : List Char → List Char)
    (dir infoHash filePath content1 content2 : List Char) (st : ArtifactState) :
    (storeVtt hashHex dir infoHash filePath content1 st).1 =
      mkVttKey hashHex infoHash filePath ∧
    (storeVtt hashHex dir infoHash filePath content2
        (storeVtt hashHex dir infoHash filePath content1 st).2).1 =
      (storeVtt hashHex dir infoHash filePath content1 st).1 ∧
    (storeVtt hashHex dir infoHash filePath content2
        (storeVtt hashHex dir infoHash filePath content1 st).2).2.fsFiles =
      (storeVtt hashHex dir infoHash filePath content1 st).2.fsFiles := by
  cases h1 : lookupA (vttPath hashHex dir infoHash filePath) st.fsFiles with
  | some c => simp [storeVtt, h1]
  | none => simp [storeVtt, h1, insertA, lookupA]

/-! ## File selection for streaming (`getFileToStream`, main.go 299-313;
`streamHandler`'s selection phase, main.go 344-359) -/

/-- A torrent file: display path and length. -/
structure TorrentFile where
  path : List Char
  size : Int
deriving Repr, DecidableEq

/-- The fallback scan of `getFileToStream`: the first file strictly
larger than every earlier one (`nil` when every file has length 0). -/
def largestFile (files : List TorrentFile) : Option TorrentFile :=
  (files.foldl
    (fun acc f => if f.size > acc.2 then (some f, f.size) else acc)
    ((none : Option TorrentFile), (0 : Int))).1

/-- `getFileToStream(t, index)` (main.go 299-313): an in-bounds index
selects that file; any other index falls back to the largest file. -/
def getFileToStream (files : List TorrentFile) (index : Int) : Option TorrentFile :=
  if 0 ≤ index ∧ index < (files.length : Int) then files[index.toNat]?
  else largestFile files

/-- The selection-phase outcome of `streamHandler` (main.go 344-359):
404 for an empty file list, 500 when no file can be chosen, otherwise
the chosen file is streamed. -/
inductive StreamOutcome where
  | notFound
  | serverError
  | streamFile (f : TorrentFile)
deriving DecidableEq, Repr

/-- `streamHandler`'s file selection (main.go 344-359). -/
def streamSelect (files : List TorrentFile) (index : Int) : StreamOutcome :=
  if files.length = 0 then .notFound
  else
    match getFileToStream files index with
    | none => .serverError
    | some f => .streamFile f

/-- C3 counterexample: the out-of-bounds explicit index 5 on a two-file
torrent does not produce NotFound; the handler streams the largest
file. -/
theorem streamSelect_oob_not_notFound :
    streamSelect [⟨"a.mp4".toList, 5⟩, ⟨"b.mkv".toList, 9⟩] 5 =
      .streamFile ⟨"b.mkv".toList, 9⟩ ∧
    streamSelect [⟨"a.mp4".toList, 5⟩, ⟨"b.mkv".toList, 9⟩] 5 ≠ .notFound := by
  exact ⟨by decide, by decide⟩

/-- C3 amended: an explicit index outside the file list's bounds behaves
exactly like the auto-selection path (index `-1`), falling back to the
largest file, and NotFound arises only for a torrent with no files. -/
theorem streamSelect_oob_amended (files : List TorrentFile) (index : Int)
    (hoob : ¬ (0 ≤ index ∧ index < (files.length : Int))) :
    streamSelect files index = streamSelect files (-1) ∧
    (streamSelect files index = .notFound ↔ files = []) := by
  have hsel : getFileToStream files index = largestFile files := by
    rw [getFileToStream, if_neg hoob]
  have hm1 : getFileToStream files (-1) = largestFile files := by
    rw [getFileToStream, if_neg]
    intro h
    exact absurd h.1 (by decide)
  constructor
  · rw [streamSelect, streamSelect, hsel, hm1]
  · constructor
    · intro h
      cases files with
      | nil => rfl
      | cons f fs =>
        exfalso
        rw [streamSelect] at h
        have hlen : ¬ ((f :: fs).length = 0) := by simp
        rw [if_neg hlen] at h
        cases hg : getFileToStream (f :: fs) index with
        | none =>
          rw [hg] at h
          exact StreamOutcome.noConfusion h
        | some g =>
          rw [hg] at h
          exact StreamOutcome.noConfusion h
    · intro h
      subst h
      rfl

/-- Witness for the amended C3 at index 7 on a one-file torrent. -/
theorem streamSelect_oob_amended_witness :
    (¬ (0 ≤ (7 : Int) ∧ (7 : Int) < (([⟨"a.mp4".toList, 5⟩] : List TorrentFile).length : Int))) ∧
    streamSelect [⟨"a.mp4".toList, 5⟩] 7 = streamSelect [⟨"a.mp4".toList, 5⟩] (-1) ∧
    (streamSelect [⟨"a.mp4".toList, 5⟩] 7 = .notFound ↔
      ([⟨"a.mp4".toList, 5⟩] : List TorrentFile) = []) := by
  have h := streamSelect_oob_amended [⟨"a.mp4".toList, 5⟩] 7 (by decide)
  exact ⟨by decide, h.1, h.2⟩

/-! ## Subtitle file serving path check (`serveSubtitleFileHandler`, main.go 727-742) -/

/-- Split an absolute path on `/` into its non-empty, non-`.`
components (the lexical elements `filepath.Clean` keeps or cancels). -/
def pathComponents (p : List Char) : List (List Char) :=
  (splitOnChar '/' p).filter (fun c => decide (c ≠ [] ∧ c ≠ ['.']))

/-- The `..`-cancellation of `filepath.Clean` on an absolute path's
components: `..` pops the previous component (or disappears at the
root). -/
def cleanComps (comps : List (List Char)) : List (List Char) :=
  comps.foldl (fun acc comp => if comp = ['.', '.'] then acc.dropLast else acc ++ [comp]) []

/-- Render components back to a rooted path string. -/
def renderComps : List (List Char) → List Char
  | [] => []
  | [c] => c
  | c :: rest => c ++ '/' :: renderComps rest

/-- An absolute cleaned path: `/` followed by its components. -/
def renderAbs (comps : List (List Char)) : List Char :=
  '/' :: renderComps comps

/-- `filepath.Join(tc.downloadDir, fileName)` for an absolute, already
clean download directory, which also equals `filepath.Clean` of the
joined path (`Join` cleans its result). -/
def joinClean (dir name : List Char) : List Char :=
  renderAbs (cleanComps (pathComponents dir ++ pathComponents name))

/-- The guard of `serveSubtitleFileHandler` (main.go 736):
`strings.HasPrefix(filepath.Clean(filePath), tc.downloadDir)`; the file
is served exactly when this holds. -/
def serveCheckPasses (dir name : List Char) : Bool :=
  startsWith dir (joinClean dir name)

/-- Modelled from the claim's words (refinement target): the resolved
path lies inside the download directory when the directory's component
sequence leads the resolved path's component sequence. -/
def insideDownloadDir (dir name : List Char) : Bool :=
  (pathComponents dir).isPrefixOf (cleanComps (pathComponents dir ++ pathComponents name))

/-- C10 counterexample: with download directory `/d`, the request
`file=../dx/secret` resolves to `/dx/secret`, which is outside `/d`,
yet the string-prefix guard passes and the file is served. -/
theorem serveCheck_escape_counterexample :
    serveCheckPasses "/d".toList "../dx/secret".toList = true ∧
    insideDownloadDir "/d".toList "../dx/secret".toList = false ∧
    joinClean "/d".toList "../dx/secret".toList = "/dx/secret".toList := by
  exact ⟨by decide, by decide, by decide⟩

theorem isPrefixOf_append_self {α : Type} [BEq α] [LawfulBEq α]
    (a b : List α) : a.isPrefixOf (a ++ b) = true := by
  induction a with
  | nil => simp [List.isPrefixOf]
  | cons x xs ih => simp [List.isPrefixOf, ih]

theorem cleanComps_aux_no_dotdot :
    ∀ (l : List (List Char)) (acc : List (List Char)), ['.', '.'] ∉ l →
      l.foldl (fun acc comp => if comp = ['.', '.'] then acc.dropLast else acc ++ [comp])
        acc = acc ++ l := by
  intro l
  induction l with
  | nil => intro acc _; simp
  | cons x xs ih =>
    intro acc hnm
    have hx : ¬ (x = ['.', '.']) := fun hh => hnm (hh ▸ List.mem_cons_self x xs)
    rw [List.foldl_cons, if_neg hx, ih (acc ++ [x]) (fun hh => hnm (List.mem_cons_of_mem _ hh))]
    simp

theorem cleanComps_no_dotdot {l : List (List Char)} (h : ['.', '.'] ∉ l) :
    cleanComps l = l := by
  rw [cleanComps, cleanComps_aux_no_dotdot l [] h]
  simp

theorem renderComps_append :
    ∀ (a b : List (List Char)), a ≠ [] → b ≠ [] →
      renderComps (a ++ b) = renderComps a ++ '/' :: renderComps b := by
  intro a
  induction a with
  | nil => intro b h; exact absurd rfl h
  | cons x xs ih =>
    intro b _ hb
    cases xs with
    | nil =>
      cases b with
      | nil => exact absurd rfl hb
      | cons y ys => rfl
    | cons z zs =>
      show x ++ '/' :: renderComps (z :: zs ++ b) =
        (x ++ '/' :: renderComps (z :: zs)) ++ '/' :: renderComps b
      rw [ih b (by simp) hb]
      simp

/-- C10 amended: the guard admits exactly the requests whose cleaned
join has the download directory as a string prefix.  In particular every
request whose `file` parameter has no `..` component resolves inside the
directory and is served; but, as the counterexample shows, a `..` path
landing in a sibling directory whose name extends the download
directory's name also passes, so files outside the directory can be
served. -/
theorem serveCheck_no_dotdot_inside (dir name : List Char)
    (hdir1 : ['.', '.'] ∉ pathComponents dir)
    (hdir2 : dir = renderAbs (pathComponents dir))
    (hname : ['.', '.'] ∉ pathComponents name) :
    serveCheckPasses dir name = true ∧
    insideDownloadDir dir name = true := by
  have hclean : cleanComps (pathComponents dir ++ pathComponents name) =
      pathComponents dir ++ pathComponents name := by
    apply cleanComps_no_dotdot
    intro hm
    rcases List.mem_append.mp hm with h | h
    · exact hdir1 h
    · exact hname h
  constructor
  · rw [serveCheckPasses, joinClean, hclean]
    cases hnc : pathComponents name with
    | nil =>
      rw [List.append_nil, ← hdir2]
      exact startsWith_refl _
    | cons n ns =>
      cases hdc : pathComponents dir with
      | nil =>
        have hdir3 : dir = ['/'] := by
          rw [hdir2, hdc]
          rfl
        rw [hdir3, renderAbs, List.nil_append]
        simp [startsWith]
      | cons d ds =>
        have hdir3 : dir = '/' :: renderComps (d :: ds) := by
          rw [hdir2, hdc]
          rfl
        rw [renderAbs, renderComps_append (d :: ds) (n :: ns) (by simp) (by simp), hdir3]
        exact startsWith_append ('/' :: renderComps (d :: ds)) ('/' :: renderComps (n :: ns))
  · rw [insideDownloadDir, hclean]
    exact isPrefixOf_append_self _ _

/-- Witness for the amended C10: a `..`-free request under `/data`. -/
theorem serveCheck_no_dotdot_inside_witness :
    (['.', '.'] ∉ pathComponents "/data".toList) ∧
    ("/data".toList = renderAbs (pathComponents "/data".toList)) ∧
    (['.', '.'] ∉ pathComponents "subs/x.ass".toList) ∧
    serveCheckPasses "/data".toList "subs/x.ass".toList = true ∧
    insideDownloadDir "/data".toList "subs/x.ass".toList = true := by
  have h := serveCheck_no_dotdot_inside "/data".toList "subs/x.ass".toList
    (by decide) (by decide) (by decide)
  exact ⟨by decide, by decide, by decide, h.1, h.2⟩

end Rsd93
